import Mathlib

/-!
Shallow embedding of the `polkapobal` ink! contract (`src/lib.rs`).

`AccountId` and `Hash` are modelled as `Nat`; `Balance` (`u128`) as `Nat`
with explicit checked arithmetic against `2 ^ 128`; task names are `String`
as in the source.  Each `#[ink(message)]` becomes a pure function
`Polkapobal → ⟨env inputs⟩ → Except Error (Polkapobal × List Event)`:
a panic (failed `assert!` / `expect`) becomes `Except.error`, and — as in
the hosting runtime, where a panic reverts the whole transaction — an
erroneous call leaves the observable state untouched (`execS`).
Ambient environment data (caller, block number, transferred value,
contract balance, the success or failure of each `env().transfer`) are
explicit arguments.
-/

/-- Upper bound of `u128` arithmetic: `2 ^ 128`. -/
def U128 : Nat := 2 ^ 128

/-- Embeds `u128::checked_add`: `none` exactly when the sum overflows. -/
def checked_add (a b : Nat) : Option Nat :=
  if a + b < U128 then some (a + b) else none

/-- Pointwise update of a map modelled as a function (`ink::storage::Mapping`
`insert` / `remove` / `take` all reduce to this). -/
def mset {K V : Type} [DecidableEq K] (m : K → V) (k : K) (v : V) : K → V :=
  fun x => if x = k then v else m x

/-- Embeds `Vec::swap_remove(i)`: replace index `i` with the last element and pop. -/
def swapRemove {α : Type} (l : List α) (i : Nat) : List α :=
  match l.getLast? with
  | none => []
  | some lst => (l.set i lst).dropLast

/-- Embeds `Iterator::position`: index of the first element satisfying `p`. -/
def position {α : Type} (p : α → Bool) : List α → Option Nat
  | [] => none
  | a :: t => if p a then some 0 else (position p t).map (· + 1)

/-- Panics of the contract, by `assert!`/`expect` message. -/
inductive Error : Type
  | OnlyOwner            -- "Only owner can call"
  | MemberExists         -- "Member already exists"
  | MustBeMember         -- "Must be a member to call"
  | MemberMustExist      -- "Member existence verified before calling"
  | TaskExists           -- "Task already exists"
  | TaskNotFound         -- "Task does not exist"
  | TaskMustExist        -- "Task must exist" / "Task existence verified before calling"
  | TaskCompleted        -- "Task already completed"
  | BalanceOverflow      -- "Balance overflow"
  | EraNotReached        -- "Selection era not reached"
  | TaskIncomplete       -- "Active task must be completed"
  | NoMembers            -- "Must have at least one member"
  | NoTasks              -- "Must have at least one task"
  | NotActiveParticipant -- "Caller must be active participant"
  | ActiveTaskMustExist  -- "Active task must exist"
  | InsufficientFunds    -- "Contract has insufficient funds"
  | DivideByZero         -- u128 division by zero in `disburse_rewards`
  deriving DecidableEq, Repr

/-- The `#[ink(event)]` declarations. -/
inductive Event : Type
  | SelectionEraChanged (new_era : Nat)
  | MemberRegistered (member : Nat)
  | MemberDeregistered (member : Nat)
  | MembersCleared
  | TaskAdded (task : String)
  | TaskRemoved (task : String)
  | TasksCleared
  | TaskFunded (task : String) (donor : Nat) (amount : Nat)
  | NewEraStarted (era : Nat) (participants : List Nat) (task : String)
  deriving DecidableEq, Repr

/-- The `#[ink(storage)]` struct. -/
structure Polkapobal : Type where
  owner : Nat
  members : List Nat
  is_member : Nat → Bool
  tasks : List String
  task_info : String → Option (Bool × Nat)
  unclaimed_funds : Nat
  start_block : Nat
  next_selection : Nat
  last_selection : Nat
  active_participants : List Nat
  active_task : Option (String × Bool)
  proofs : String → Option Nat

/-- The constructor `Polkapobal::new(selection_era)`. -/
def Polkapobal.new (caller blk selection_era : Nat) : Polkapobal :=
  { owner := caller
    members := []
    is_member := fun _ => false
    tasks := []
    task_info := fun _ => none
    unclaimed_funds := 0
    start_block := blk
    next_selection := selection_era
    last_selection := blk
    active_participants := []
    active_task := none
    proofs := fun _ => none }

/-- Embeds `set_selection_era`. -/
def set_selection_era (s : Polkapobal) (caller era : Nat) :
    Except Error (Polkapobal × List Event) :=
  if caller = s.owner then
    .ok ({ s with next_selection := era }, [.SelectionEraChanged era])
  else .error .OnlyOwner

/-- Embeds `register_member`. -/
def register_member (s : Polkapobal) (caller : Nat) :
    Except Error (Polkapobal × List Event) :=
  if s.is_member caller then .error .MemberExists
  else
    .ok ({ s with is_member := mset s.is_member caller true
                  members := s.members ++ [caller] },
      [.MemberRegistered caller])

/-- Embeds `deregister_member`. -/
def deregister_member (s : Polkapobal) (caller : Nat) :
    Except Error (Polkapobal × List Event) :=
  if s.is_member caller then
    match position (fun x => x == caller) s.members with
    | none => .error .MemberMustExist
    | some i =>
      .ok ({ s with members := swapRemove s.members i
                    is_member := mset s.is_member caller false },
        [.MemberDeregistered caller])
  else .error .MustBeMember

/-- The body of the `clear_members` loop: iterates over the reversed
enumeration of the cloned member vector, removing each entry from the map
and `swap_remove`-ing its index from the live vector. -/
def clearMembersLoop : List (Nat × Nat) → (Nat → Bool) → List Nat →
    ((Nat → Bool) × List Nat)
  | [], im, ms => (im, ms)
  | (i, m) :: rest, im, ms =>
    clearMembersLoop rest (mset im m false) (swapRemove ms i)

/-- Embeds `clear_members`. -/
def clear_members (s : Polkapobal) (caller : Nat) :
    Except Error (Polkapobal × List Event) :=
  if caller = s.owner then
    let p := clearMembersLoop s.members.enum.reverse s.is_member s.members
    .ok ({ s with is_member := p.1, members := p.2 }, [.MembersCleared])
  else .error .OnlyOwner

/-- Embeds `add_task`. -/
def add_task (s : Polkapobal) (caller : Nat) (task : String) :
    Except Error (Polkapobal × List Event) :=
  if s.is_member caller then
    if (s.task_info task).isSome then .error .TaskExists
    else
      .ok ({ s with task_info := mset s.task_info task (some (false, 0))
                    tasks := s.tasks ++ [task] },
        [.TaskAdded task])
  else .error .MustBeMember

/-- Embeds `remove_task`.  The `contains` assertion and the subsequent
`take(..).expect(..)` read the same map entry, so they collapse into one
`match`; `take` removes the entry. -/
def remove_task (s : Polkapobal) (caller : Nat) (task : String) :
    Except Error (Polkapobal × List Event) :=
  if caller = s.owner then
    match s.task_info task with
    | none => .error .TaskNotFound
    | some info =>
      match checked_add s.unclaimed_funds info.2 with
      | none => .error .BalanceOverflow
      | some uf =>
        match position (fun x => x == task) s.tasks with
        | none => .error .TaskMustExist
        | some i =>
          .ok ({ s with task_info := mset s.task_info task none
                        unclaimed_funds := uf
                        tasks := swapRemove s.tasks i },
            [.TaskRemoved task])
  else .error .OnlyOwner

/-- The body of the `clear_tasks` loop: `take` each task's info (panicking
if absent), checked-add its funds to the unclaimed pool, `swap_remove` it
from the live vector. -/
def clearTasksLoop : List (Nat × String) → (String → Option (Bool × Nat)) →
    Nat → List String →
    Except Error ((String → Option (Bool × Nat)) × Nat × List String)
  | [], ti, uf, ts => .ok (ti, uf, ts)
  | (i, t) :: rest, ti, uf, ts =>
    match ti t with
    | none => .error .TaskMustExist
    | some info =>
      match checked_add uf info.2 with
      | none => .error .BalanceOverflow
      | some uf2 => clearTasksLoop rest (mset ti t none) uf2 (swapRemove ts i)

/-- Embeds `clear_tasks`. -/
def clear_tasks (s : Polkapobal) (caller : Nat) :
    Except Error (Polkapobal × List Event) :=
  if caller = s.owner then
    match clearTasksLoop s.tasks.enum.reverse s.task_info s.unclaimed_funds
        s.tasks with
    | .error e => .error e
    | .ok (ti, uf, ts) =>
      .ok ({ s with task_info := ti, unclaimed_funds := uf, tasks := ts },
        [.TasksCleared])
  else .error .OnlyOwner

/-- Embeds `fund_task` (payable; `transferred` is `env().transferred_value()`). -/
def fund_task (s : Polkapobal) (caller transferred : Nat) (task : String) :
    Except Error (Polkapobal × List Event) :=
  match s.task_info task with
  | none => .error .TaskNotFound
  | some info =>
    if info.1 then .error .TaskCompleted
    else
      match checked_add info.2 transferred with
      | none => .error .BalanceOverflow
      | some b =>
        .ok ({ s with task_info := mset s.task_info task (some (info.1, b)) },
          [.TaskFunded task caller transferred])

/-- Embeds `ensure_active_task_complete` as a boolean: true iff `active_task` is
`None` or its completion flag is set. -/
def active_task_completed (s : Polkapobal) : Bool :=
  match s.active_task with
  | some (_, c) => c
  | none => true

/-- Embeds `randomly_select_members` (the selection loop; its emptiness assertion
lives in `start_new_era` below). -/
def randomly_select_members (s : Polkapobal) (blk : Nat) : List Nat :=
  (List.range 4).map fun i => s.members.getD ((blk + i) % s.members.length) 0

/-- Embeds `randomly_select_task` (its emptiness assertion lives in
`start_new_era` below). -/
def randomly_select_task (s : Polkapobal) (blk : Nat) : String :=
  s.tasks.getD (blk % s.tasks.length) ""

/-- Embeds `start_new_era` (`blk` is `env().block_number()`).  Checks run in
source order: era gate, active-task completion, member emptiness, task
emptiness. -/
def start_new_era (s : Polkapobal) (blk : Nat) :
    Except Error (Polkapobal × List Event) :=
  if blk < s.last_selection + s.next_selection then .error .EraNotReached
  else if active_task_completed s then
    if s.members.length = 0 then .error .NoMembers
    else if s.tasks.length = 0 then .error .NoTasks
    else
      .ok ({ s with last_selection := blk
                    active_participants := randomly_select_members s blk
                    active_task := some (randomly_select_task s blk, false) },
        [.NewEraStarted blk (randomly_select_members s blk)
          (randomly_select_task s blk)])
  else .error .TaskIncomplete

/-- Embeds `upload_completion_proof`. -/
def upload_completion_proof (s : Polkapobal) (caller proof : Nat) :
    Except Error (Polkapobal × List Event) :=
  if caller ∈ s.active_participants then
    match s.active_task with
    | none => .error .ActiveTaskMustExist
    | some (t, _) => .ok ({ s with proofs := mset s.proofs t (some proof) }, [])
  else .error .NotActiveParticipant

/-- The per-beneficiary loop of `disburse_rewards`: `tok i` tells whether
the `i`-th `env().transfer` of this call succeeds; a failed share is
checked-added to the unclaimed accumulator.  Returns the accumulator and
the successful transfers in order. -/
def disburseLoop (share : Nat) (tok : Nat → Bool) :
    List Nat → Nat → Nat → Except Error (Nat × List (Nat × Nat))
  | [], _, uf => .ok (uf, [])
  | b :: bs, i, uf =>
    if tok i then
      match disburseLoop share tok bs (i + 1) uf with
      | .ok (uf2, ts) => .ok (uf2, (b, share) :: ts)
      | .error e => .error e
    else
      match checked_add uf share with
      | none => .error .BalanceOverflow
      | some uf2 => disburseLoop share tok bs (i + 1) uf2

/-- Embeds `disburse_rewards` (`balance` is `env().balance()`; `unclaimed` is the
current `unclaimed_funds`).  Returns the new unclaimed pool and the list
of successful transfers `(beneficiary, amount)`. -/
def disburse_rewards (beneficiaries : List Nat) (amount balance : Nat)
    (tok : Nat → Bool) (unclaimed : Nat) :
    Except Error (Nat × List (Nat × Nat)) :=
  if balance < amount then .error .InsufficientFunds
  else if beneficiaries.length = 0 then .error .DivideByZero
  else
    let share := amount / beneficiaries.length
    let remainder := amount % beneficiaries.length
    match disburseLoop share tok beneficiaries 0 unclaimed with
    | .error e => .error e
    | .ok (uf, ts) =>
      match checked_add uf remainder with
      | none => .error .BalanceOverflow
      | some uf2 => .ok (uf2, ts)

/-- Embeds `complete_task` (`balance` is `env().balance()`; `tok` is the transfer
oracle threaded to `disburse_rewards`). -/
def complete_task (s : Polkapobal) (caller balance : Nat) (tok : Nat → Bool) :
    Except Error (Polkapobal × List Event) :=
  if caller = s.owner then
    match s.active_task with
    | none => .ok (s, [])
    | some (t, _) =>
      match s.task_info t with
      | none => .error .TaskMustExist
      | some info =>
        match disburse_rewards s.active_participants info.2 balance tok
            s.unclaimed_funds with
        | .error e => .error e
        | .ok (uf, _) =>
          .ok ({ s with active_task := some (t, true)
                        unclaimed_funds := uf
                        task_info := mset s.task_info t (some (true, 0)) },
            [])
  else .error .OnlyOwner

/-- One public message invocation, with its ambient environment inputs. -/
inductive Op : Type
  | setSelectionEra (caller era : Nat)
  | registerMember (caller : Nat)
  | deregisterMember (caller : Nat)
  | clearMembers (caller : Nat)
  | addTask (caller : Nat) (task : String)
  | removeTask (caller : Nat) (task : String)
  | clearTasks (caller : Nat)
  | fundTask (caller transferred : Nat) (task : String)
  | startNewEra (blk : Nat)
  | uploadProof (caller proof : Nat)
  | completeTask (caller balance : Nat) (tok : Nat → Bool)

/-- Dispatch an operation to the corresponding message. -/
def exec : Op → Polkapobal → Except Error (Polkapobal × List Event)
  | .setSelectionEra c e, s => set_selection_era s c e
  | .registerMember c, s => register_member s c
  | .deregisterMember c, s => deregister_member s c
  | .clearMembers c, s => clear_members s c
  | .addTask c t, s => add_task s c t
  | .removeTask c t, s => remove_task s c t
  | .clearTasks c, s => clear_tasks s c
  | .fundTask c v t, s => fund_task s c v t
  | .startNewEra b, s => start_new_era s b
  | .uploadProof c p, s => upload_completion_proof s c p
  | .completeTask c b tok, s => complete_task s c b tok

/-- Transactional semantics of the hosting runtime: a panic reverts the
whole call, so the observable post-state of an erroneous call is the
pre-state. -/
def execS (op : Op) (s : Polkapobal) : Polkapobal :=
  match exec op s with
  | .ok (s2, _) => s2
  | .error _ => s

/-- States reachable from some freshly constructed contract by public
messages. -/
inductive Reachable : Polkapobal → Prop
  | init (caller blk era : Nat) : Reachable (Polkapobal.new caller blk era)
  | step (op : Op) {s : Polkapobal} : Reachable s → Reachable (execS op s)

/-- A concrete state used to exercise `start_new_era`: one member, one
task, era length 1 starting at block 0. -/
def sC1 : Polkapobal :=
  { Polkapobal.new 3 0 1 with members := [7], tasks := ["a"] }

/-- A concrete state on which `clear_tasks` overflows the unclaimed pool
mid-way: sweeping "b" succeeds, sweeping "a" then overflows. -/
def sOv : Polkapobal :=
  { Polkapobal.new 0 0 0 with
    tasks := ["a", "b"]
    task_info := fun t =>
      if t = "a" then some (false, U128 - 1)
      else if t = "b" then some (false, 5) else none }

/-- A reachable state whose `active_task` names a task with no info entry:
register, add a task, start an era, then remove the active task. -/
def sDangling : Polkapobal :=
  execS (.removeTask 0 "t")
    (execS (.startNewEra 0)
      (execS (.addTask 0 "t")
        (execS (.registerMember 0) (Polkapobal.new 0 0 0))))

/-! ### Helper lemmas about `swapRemove`, `position`, `checked_add` -/

theorem swapRemove_perm {α : Type} :
    ∀ (l : List α) (i : Nat), i < l.length →
      (swapRemove l i).Perm (l.eraseIdx i) := by
  intro l
  induction l with
  | nil => intro i h; simp at h
  | cons a t ih =>
    intro i h
    cases i with
    | zero =>
      cases t with
      | nil => simp [swapRemove]
      | cons b t2 =>
        simp only [swapRemove, List.getLast?_cons_cons, List.eraseIdx]
        cases hg : (b :: t2).getLast? with
        | none => simp at hg
        | some lst =>
          simp only [List.set]
          rw [List.dropLast_cons₂]
          have hne : b :: t2 ≠ [] := by simp
          have hl : (b :: t2).getLast hne = lst := by
            have := List.getLast?_eq_getLast (b :: t2) hne
            rw [hg] at this
            exact (Option.some_inj.mp this).symm
          have hdl : (b :: t2).dropLast ++ [lst] = b :: t2 := by
            rw [← hl]; exact List.dropLast_append_getLast hne
          have h2 : ((b :: t2).dropLast ++ [lst]).Perm (b :: t2) := by
            rw [hdl]
          exact (List.perm_append_singleton _ _).symm.trans h2
    | succ j =>
      cases t with
      | nil => simp at h
      | cons b t2 =>
        have hj : j < (b :: t2).length := by simpa using h
        have hrec := ih j hj
        simp only [swapRemove, List.getLast?_cons_cons] at hrec ⊢
        cases hg : (b :: t2).getLast? with
        | none => simp at hg
        | some lst =>
          rw [hg] at hrec
          simp only [List.set, List.eraseIdx]
          have hset : ((b :: t2).set j lst) ≠ [] := by
            intro hc
            have := congrArg List.length hc
            simp at this
          cases hs : (b :: t2).set j lst with
          | nil => exact absurd hs hset
          | cons c cs =>
            rw [← hs, List.dropLast_cons_of_ne_nil hset]
            exact hrec.cons a

theorem mem_eraseIdx_iff {α : Type} [DecidableEq α] :
    ∀ (l : List α) (i : Nat) (h : i < l.length), l.Nodup →
      ∀ a, (a ∈ l.eraseIdx i ↔ a ∈ l ∧ a ≠ l.get ⟨i, h⟩) := by
  intro l
  induction l with
  | nil => intro i h; simp at h
  | cons x t ih =>
    intro i h hnd a
    cases i with
    | zero =>
      simp only [List.eraseIdx, List.get]
      have hx : x ∉ t := (List.nodup_cons.mp hnd).1
      constructor
      · intro ha
        refine ⟨List.mem_cons_of_mem _ ha, ?_⟩
        intro hax; rw [hax] at ha; exact hx ha
      · rintro ⟨ha, hne⟩
        rcases List.mem_cons.mp ha with h1 | h1
        · exact absurd h1 hne
        · exact h1
    | succ j =>
      have hj : j < t.length := by simpa using h
      have hx : x ∉ t := (List.nodup_cons.mp hnd).1
      have hndt : t.Nodup := (List.nodup_cons.mp hnd).2
      have hxt : x ≠ t.get ⟨j, hj⟩ := by
        intro hc; rw [hc] at hx; exact hx (t.get_mem _ _)
      simp only [List.eraseIdx, List.mem_cons, List.get]
      rw [ih j hj hndt a]
      constructor
      · rintro (h1 | ⟨h1, h2⟩)
        · exact ⟨Or.inl h1, h1 ▸ hxt⟩
        · exact ⟨Or.inr h1, h2⟩
      · rintro ⟨h1 | h1, h2⟩
        · exact Or.inl h1
        · exact Or.inr ⟨h1, h2⟩

theorem mem_swapRemove {α : Type} [DecidableEq α] (l : List α) (i : Nat)
    (h : i < l.length) (hnd : l.Nodup) (a : α) :
    a ∈ swapRemove l i ↔ a ∈ l ∧ a ≠ l.get ⟨i, h⟩ :=
  ((swapRemove_perm l i h).mem_iff).trans (mem_eraseIdx_iff l i h hnd a)

theorem nodup_swapRemove {α : Type} (l : List α) (i : Nat)
    (h : i < l.length) (hnd : l.Nodup) : (swapRemove l i).Nodup :=
  (swapRemove_perm l i h).nodup_iff.mpr
    ((List.eraseIdx_sublist l i).nodup hnd)

theorem position_eq_some {α : Type} (p : α → Bool) :
    ∀ (l : List α) (i : Nat), position p l = some i →
      ∃ h : i < l.length, p (l.get ⟨i, h⟩) = true := by
  intro l
  induction l with
  | nil => intro i h; simp [position] at h
  | cons a t ih =>
    intro i h
    simp only [position] at h
    by_cases hp : p a
    · rw [if_pos hp] at h
      cases h
      exact ⟨by simp, hp⟩
    · rw [if_neg hp] at h
      cases hrec : position p t with
      | none => rw [hrec] at h; simp at h
      | some j =>
        rw [hrec] at h
        simp only [Option.map_some'] at h
        obtain ⟨hj, hpj⟩ := ih j hrec
        cases h
        exact ⟨by simpa using Nat.succ_lt_succ hj, hpj⟩

theorem position_eq_none {α : Type} (p : α → Bool) :
    ∀ l : List α, position p l = none → ∀ a ∈ l, p a = false := by
  intro l
  induction l with
  | nil => intro _ a ha; simp at ha
  | cons x t ih =>
    intro h a ha
    simp only [position] at h
    by_cases hp : p x
    · rw [if_pos hp] at h; simp at h
    · rw [if_neg hp] at h
      rcases List.mem_cons.mp ha with h1 | h1
      · subst h1; simpa using hp
      · cases hrec : position p t with
        | none => exact ih hrec a h1
        | some j => rw [hrec] at h; simp at h

theorem checked_add_eq_some {a b : Nat} (h : a + b < U128) :
    checked_add a b = some (a + b) := by
  simp [checked_add, h]

/-! ### Inversion lemmas: what a successful call did -/

theorem execS_cases (op : Op) (s : Polkapobal) :
    execS op s = s ∨ ∃ r, exec op s = .ok r ∧ execS op s = r.1 := by
  unfold execS
  cases h : exec op s with
  | ok r => exact Or.inr ⟨r, rfl, rfl⟩
  | error e => exact Or.inl rfl

theorem set_selection_era_ok {s : Polkapobal} {c e : Nat}
    {r : Polkapobal × List Event} (h : set_selection_era s c e = .ok r) :
    c = s.owner ∧ r = ({ s with next_selection := e },
      [.SelectionEraChanged e]) := by
  unfold set_selection_era at h
  split at h
  · cases h; exact ⟨by assumption, rfl⟩
  · cases h

theorem register_member_ok {s : Polkapobal} {c : Nat}
    {r : Polkapobal × List Event} (h : register_member s c = .ok r) :
    s.is_member c = false ∧
      r = ({ s with is_member := mset s.is_member c true
                    members := s.members ++ [c] },
        [.MemberRegistered c]) := by
  unfold register_member at h
  split at h
  · cases h
  · cases h
    next hm => exact ⟨by simpa using hm, rfl⟩

theorem deregister_member_ok {s : Polkapobal} {c : Nat}
    {r : Polkapobal × List Event} (h : deregister_member s c = .ok r) :
    ∃ i, s.is_member c = true ∧
      position (fun x => x == c) s.members = some i ∧
      r = ({ s with members := swapRemove s.members i
                    is_member := mset s.is_member c false },
        [.MemberDeregistered c]) := by
  unfold deregister_member at h
  split at h
  · next hm =>
    split at h
    · cases h
    · next i hp => cases h; exact ⟨i, hm, hp, rfl⟩
  · cases h

theorem clear_members_ok {s : Polkapobal} {c : Nat}
    {r : Polkapobal × List Event} (h : clear_members s c = .ok r) :
    c = s.owner ∧
      r = ({ s with
          is_member :=
            (clearMembersLoop s.members.enum.reverse s.is_member s.members).1
          members :=
            (clearMembersLoop s.members.enum.reverse s.is_member s.members).2 },
        [.MembersCleared]) := by
  unfold clear_members at h
  split at h
  · cases h; exact ⟨by assumption, rfl⟩
  · cases h

theorem add_task_ok {s : Polkapobal} {c : Nat} {t : String}
    {r : Polkapobal × List Event} (h : add_task s c t = .ok r) :
    s.is_member c = true ∧ s.task_info t = none ∧
      r = ({ s with task_info := mset s.task_info t (some (false, 0))
                    tasks := s.tasks ++ [t] },
        [.TaskAdded t]) := by
  unfold add_task at h
  split at h
  · next hm =>
    split at h
    · cases h
    · next hi =>
      cases h
      exact ⟨hm, by simpa using hi, rfl⟩
  · cases h

theorem remove_task_ok {s : Polkapobal} {c : Nat} {t : String}
    {r : Polkapobal × List Event} (h : remove_task s c t = .ok r) :
    ∃ info uf i, c = s.owner ∧ s.task_info t = some info ∧
      checked_add s.unclaimed_funds info.2 = some uf ∧
      position (fun x => x == t) s.tasks = some i ∧
      r = ({ s with task_info := mset s.task_info t none
                    unclaimed_funds := uf
                    tasks := swapRemove s.tasks i },
        [.TaskRemoved t]) := by
  unfold remove_task at h
  split at h
  · next how =>
    split at h
    · cases h
    · next info hi =>
      split at h
      · cases h
      · next uf hc =>
        split at h
        · cases h
        · next i hp =>
          cases h
          exact ⟨info, uf, i, how, hi, hc, hp, rfl⟩
  · cases h

theorem clear_tasks_ok {s : Polkapobal} {c : Nat}
    {r : Polkapobal × List Event} (h : clear_tasks s c = .ok r) :
    ∃ ti uf ts, c = s.owner ∧
      clearTasksLoop s.tasks.enum.reverse s.task_info s.unclaimed_funds
        s.tasks = .ok (ti, uf, ts) ∧
      r = ({ s with task_info := ti, unclaimed_funds := uf, tasks := ts },
        [.TasksCleared]) := by
  unfold clear_tasks at h
  split at h
  · next how =>
    split at h
    · cases h
    · next ti uf ts hl =>
      cases h
      exact ⟨ti, uf, ts, how, hl, rfl⟩
  · cases h

theorem fund_task_ok {s : Polkapobal} {c v : Nat} {t : String}
    {r : Polkapobal × List Event} (h : fund_task s c v t = .ok r) :
    ∃ info b, s.task_info t = some info ∧ info.1 = false ∧
      checked_add info.2 v = some b ∧
      r = ({ s with task_info := mset s.task_info t (some (info.1, b)) },
        [.TaskFunded t c v]) := by
  unfold fund_task at h
  split at h
  · cases h
  · next info hi =>
    split at h
    · cases h
    · next hcomp =>
      split at h
      · cases h
      · next b hc =>
        cases h
        exact ⟨info, b, hi, by simpa using hcomp, hc, rfl⟩

theorem start_new_era_ok {s : Polkapobal} {blk : Nat}
    {r : Polkapobal × List Event} (h : start_new_era s blk = .ok r) :
    s.last_selection + s.next_selection ≤ blk ∧
      active_task_completed s = true ∧
      s.members ≠ [] ∧ s.tasks ≠ [] ∧
      r = ({ s with last_selection := blk
                    active_participants := randomly_select_members s blk
                    active_task := some (randomly_select_task s blk, false) },
        [.NewEraStarted blk (randomly_select_members s blk)
          (randomly_select_task s blk)]) := by
  unfold start_new_era at h
  split at h
  · cases h
  · next h1 =>
    split at h
    · next h2 =>
      split at h
      · cases h
      · next h3 =>
        split at h
        · cases h
        · next h4 =>
          cases h
          exact ⟨by omega, h2, by simpa using h3, by simpa using h4, rfl⟩
    · cases h

theorem upload_completion_proof_ok {s : Polkapobal} {c p : Nat}
    {r : Polkapobal × List Event} (h : upload_completion_proof s c p = .ok r) :
    ∃ t b, c ∈ s.active_participants ∧ s.active_task = some (t, b) ∧
      r = ({ s with proofs := mset s.proofs t (some p) }, []) := by
  unfold upload_completion_proof at h
  split at h
  · next hc =>
    split at h
    · cases h
    · next t b ha =>
      cases h
      exact ⟨t, b, hc, ha, rfl⟩
  · cases h

theorem complete_task_ok {s : Polkapobal} {c bal : Nat} {tok : Nat → Bool}
    {r : Polkapobal × List Event} (h : complete_task s c bal tok = .ok r) :
    c = s.owner ∧
      (s.active_task = none ∧ r = (s, []) ∨
        ∃ t fl info uf ts, s.active_task = some (t, fl) ∧
          s.task_info t = some info ∧
          disburse_rewards s.active_participants info.2 bal tok
            s.unclaimed_funds = .ok (uf, ts) ∧
          r = ({ s with active_task := some (t, true)
                        unclaimed_funds := uf
                        task_info := mset s.task_info t (some (true, 0)) },
            [])) := by
  unfold complete_task at h
  split at h
  · next how =>
    refine ⟨how, ?_⟩
    split at h
    · next ha => cases h; exact Or.inl ⟨ha, rfl⟩
    · next t fl ha =>
      split at h
      · cases h
      · next info hi =>
        split at h
        · cases h
        · next uf ts hd =>
          cases h
          exact Or.inr ⟨t, fl, info, uf, ts, ha, hi, hd, rfl⟩
  · cases h

/-! ### The clearing loops -/

theorem enumFrom_concat {α : Type} (a : α) :
    ∀ (l : List α) (n : Nat),
      List.enumFrom n (l ++ [a]) = List.enumFrom n l ++ [(n + l.length, a)] := by
  intro l
  induction l with
  | nil => intro n; simp [List.enumFrom]
  | cons x t ih =>
    intro n
    simp only [List.cons_append, List.enumFrom, List.length_cons, List.append_eq]
    rw [ih (n + 1)]
    have harith : n + 1 + t.length = n + (t.length + 1) := by omega
    rw [harith]

theorem enum_concat {α : Type} (l : List α) (a : α) :
    (l ++ [a]).enum = l.enum ++ [(l.length, a)] := by
  have := enumFrom_concat a l 0
  simpa [List.enum] using this

theorem set_concat_length {α : Type} :
    ∀ (l : List α) (a : α), (l ++ [a]).set l.length a = l ++ [a] := by
  intro l
  induction l with
  | nil => intro a; rfl
  | cons x t ih => intro a; simp [List.set, ih a]

theorem swapRemove_concat {α : Type} (l : List α) (a : α) :
    swapRemove (l ++ [a]) l.length = l := by
  unfold swapRemove
  rw [List.getLast?_concat]
  show ((l ++ [a]).set l.length a).dropLast = l
  rw [set_concat_length, List.dropLast_concat]

theorem clearTasksLoop_cons_some {i : Nat} {t : String}
    {rest : List (Nat × String)} {ti : String → Option (Bool × Nat)}
    {uf : Nat} {ts : List String} {info : Bool × Nat} (h : ti t = some info) :
    clearTasksLoop ((i, t) :: rest) ti uf ts =
      match checked_add uf info.2 with
      | none => .error .BalanceOverflow
      | some uf2 => clearTasksLoop rest (mset ti t none) uf2 (swapRemove ts i) := by
  simp only [clearTasksLoop]
  rw [h]

theorem clearMembersLoop_spec :
    ∀ (ms : List Nat) (im : Nat → Bool),
      (clearMembersLoop ms.enum.reverse im ms).2 = [] ∧
      ∀ a, (clearMembersLoop ms.enum.reverse im ms).1 a =
        if a ∈ ms then false else im a := by
  intro ms
  induction ms using List.reverseRecOn with
  | nil =>
    intro im
    exact ⟨rfl, fun a => by simp [clearMembersLoop]⟩
  | append_singleton l x ih =>
    intro im
    have hrw : (l ++ [x]).enum.reverse = (l.length, x) :: l.enum.reverse := by
      rw [enum_concat]; simp
    rw [hrw]
    simp only [clearMembersLoop]
    rw [swapRemove_concat]
    obtain ⟨h2, h1⟩ := ih (mset im x false)
    refine ⟨h2, fun a => ?_⟩
    rw [h1 a]
    by_cases hal : a ∈ l
    · simp [hal]
    · by_cases hax : a = x
      · subst hax; simp [hal, mset]
      · simp [hal, hax, mset]

theorem clearTasksLoop_spec :
    ∀ (ts : List String) (ti : String → Option (Bool × Nat)) (uf : Nat),
      (∀ t, t ∈ ts ↔ (ti t).isSome = true) → ts.Nodup →
      ∀ r, clearTasksLoop ts.enum.reverse ti uf ts = .ok r →
        r.2.2 = [] ∧ ∀ t, r.1 t = none := by
  intro ts
  induction ts using List.reverseRecOn with
  | nil =>
    intro ti uf hinv _ r h
    cases h
    refine ⟨rfl, fun t => ?_⟩
    cases hti : ti t with
    | none => exact hti
    | some v => exact absurd ((hinv t).mpr (by simp [hti])) (by simp)
  | append_singleton l x ih =>
    intro ti uf hinv hnd r h
    have hrw : (l ++ [x]).enum.reverse = (l.length, x) :: l.enum.reverse := by
      rw [enum_concat]; simp
    rw [hrw] at h
    have hx : (ti x).isSome = true := (hinv x).mp (by simp)
    obtain ⟨info, hinfo⟩ := Option.isSome_iff_exists.mp hx
    rw [clearTasksLoop_cons_some hinfo, swapRemove_concat] at h
    cases hca : checked_add uf info.2 with
    | none => rw [hca] at h; cases h
    | some uf2 =>
      rw [hca] at h
      have hxl : x ∉ l := by
        rw [List.nodup_append] at hnd
        intro hc
        exact hnd.2.2 hc (by simp)
      have hinv2 : ∀ t, t ∈ l ↔ ((mset ti x none) t).isSome = true := by
        intro t
        by_cases htx : t = x
        · subst htx; simp [mset, hxl]
        · simp only [mset, if_neg htx]
          rw [← hinv t]
          simp [htx]
      have hnd2 : l.Nodup := (List.nodup_append.mp hnd).1
      exact ih (mset ti x none) uf2 hinv2 hnd2 r h

/-! ### Invariants over reachable states -/

/-- The two member representations agree and the sequence has no
duplicates. -/
def MembersInv (s : Polkapobal) : Prop :=
  (∀ a, a ∈ s.members ↔ s.is_member a = true) ∧ s.members.Nodup

theorem membersInv_step (op : Op) (s : Polkapobal) (h : MembersInv s) :
    MembersInv (execS op s) := by
  rcases execS_cases op s with hE | ⟨r, hexec, hS⟩
  · rwa [hE]
  rw [hS]
  cases op with
  | setSelectionEra c e =>
    simp only [exec] at hexec
    obtain ⟨-, hr⟩ := set_selection_era_ok hexec
    rw [hr]; exact h
  | registerMember c =>
    simp only [exec] at hexec
    obtain ⟨hm, hr⟩ := register_member_ok hexec
    rw [hr]
    refine ⟨?_, ?_⟩
    · intro a
      show a ∈ s.members ++ [c] ↔ mset s.is_member c true a = true
      by_cases hac : a = c
      · subst hac; simp [mset]
      · simp only [mset, if_neg hac, List.mem_append, List.mem_singleton, hac,
          or_false]
        exact h.1 a
    · show (s.members ++ [c]).Nodup
      rw [List.nodup_append]
      refine ⟨h.2, List.nodup_singleton c, ?_⟩
      intro y hy hyc
      rw [List.mem_singleton] at hyc
      subst hyc
      exact absurd ((h.1 y).mp hy) (by simp [hm])
  | deregisterMember c =>
    simp only [exec] at hexec
    obtain ⟨i, hm, hp, hr⟩ := deregister_member_ok hexec
    rw [hr]
    obtain ⟨hi, hbeq⟩ := position_eq_some _ _ _ hp
    have hget : s.members.get ⟨i, hi⟩ = c := by simpa using hbeq
    refine ⟨?_, nodup_swapRemove _ _ hi h.2⟩
    intro a
    show a ∈ swapRemove s.members i ↔ mset s.is_member c false a = true
    rw [mem_swapRemove s.members i hi h.2 a, hget]
    by_cases hac : a = c
    · subst hac; simp [mset]
    · simp only [mset, if_neg hac, hac, ne_eq, not_false_iff, and_true]
      exact h.1 a
  | clearMembers c =>
    simp only [exec] at hexec
    obtain ⟨-, hr⟩ := clear_members_ok hexec
    rw [hr]
    obtain ⟨h2, h1⟩ := clearMembersLoop_spec s.members s.is_member
    refine ⟨?_, ?_⟩
    · intro a
      show a ∈ (clearMembersLoop s.members.enum.reverse s.is_member
          s.members).2 ↔
        (clearMembersLoop s.members.enum.reverse s.is_member s.members).1 a =
          true
      rw [h2, h1 a]
      simp only [List.not_mem_nil, false_iff]
      by_cases ham : a ∈ s.members
      · simp [ham]
      · simp only [if_neg ham]
        exact fun hx => ham ((h.1 a).mpr hx)
    · show ((clearMembersLoop s.members.enum.reverse s.is_member
        s.members).2).Nodup
      rw [h2]
      exact List.nodup_nil
  | addTask c t =>
    simp only [exec] at hexec
    obtain ⟨-, -, hr⟩ := add_task_ok hexec
    rw [hr]; exact h
  | removeTask c t =>
    simp only [exec] at hexec
    obtain ⟨info, uf, i, -, -, -, -, hr⟩ := remove_task_ok hexec
    rw [hr]; exact h
  | clearTasks c =>
    simp only [exec] at hexec
    obtain ⟨ti, uf, ts, -, -, hr⟩ := clear_tasks_ok hexec
    rw [hr]; exact h
  | fundTask c v t =>
    simp only [exec] at hexec
    obtain ⟨info, b, -, -, -, hr⟩ := fund_task_ok hexec
    rw [hr]; exact h
  | startNewEra blk =>
    simp only [exec] at hexec
    obtain ⟨-, -, -, -, hr⟩ := start_new_era_ok hexec
    rw [hr]; exact h
  | uploadProof c p =>
    simp only [exec] at hexec
    obtain ⟨t, b, -, -, hr⟩ := upload_completion_proof_ok hexec
    rw [hr]; exact h
  | completeTask c bal tok =>
    simp only [exec] at hexec
    obtain ⟨-, hcase⟩ := complete_task_ok hexec
    rcases hcase with ⟨-, hr⟩ | ⟨t, fl, info, uf, ts, -, -, -, hr⟩ <;>
      (rw [hr]; exact h)

theorem membersInv_reachable (s : Polkapobal) (h : Reachable s) :
    MembersInv s := by
  induction h with
  | init c b e =>
    refine ⟨fun a => ?_, List.nodup_nil⟩
    simp [Polkapobal.new]
  | step op hs ih => exact membersInv_step op _ ih

/-- The task sequence and the task-info table agree and the sequence has
no duplicates. -/
def TasksInv (s : Polkapobal) : Prop :=
  (∀ t, t ∈ s.tasks ↔ (s.task_info t).isSome = true) ∧ s.tasks.Nodup

theorem tasksInv_step (op : Op) (s : Polkapobal) (h : TasksInv s) :
    TasksInv (execS op s) := by
  rcases execS_cases op s with hE | ⟨r, hexec, hS⟩
  · rwa [hE]
  rw [hS]
  cases op with
  | setSelectionEra c e =>
    simp only [exec] at hexec
    obtain ⟨-, hr⟩ := set_selection_era_ok hexec
    rw [hr]; exact h
  | registerMember c =>
    simp only [exec] at hexec
    obtain ⟨-, hr⟩ := register_member_ok hexec
    rw [hr]; exact h
  | deregisterMember c =>
    simp only [exec] at hexec
    obtain ⟨i, -, -, hr⟩ := deregister_member_ok hexec
    rw [hr]; exact h
  | clearMembers c =>
    simp only [exec] at hexec
    obtain ⟨-, hr⟩ := clear_members_ok hexec
    rw [hr]; exact h
  | addTask c t =>
    simp only [exec] at hexec
    obtain ⟨-, hnone, hr⟩ := add_task_ok hexec
    rw [hr]
    refine ⟨?_, ?_⟩
    · intro u
      show u ∈ s.tasks ++ [t] ↔ (mset s.task_info t (some (false, 0)) u).isSome = true
      by_cases hut : u = t
      · subst hut; simp [mset]
      · simp only [mset, if_neg hut, List.mem_append, List.mem_singleton, hut,
          or_false]
        exact h.1 u
    · show (s.tasks ++ [t]).Nodup
      rw [List.nodup_append]
      refine ⟨h.2, List.nodup_singleton t, ?_⟩
      intro y hy hyt
      rw [List.mem_singleton] at hyt
      subst hyt
      exact absurd ((h.1 y).mp hy) (by simp [hnone])
  | removeTask c t =>
    simp only [exec] at hexec
    obtain ⟨info, uf, i, -, hsome, -, hp, hr⟩ := remove_task_ok hexec
    rw [hr]
    obtain ⟨hi, hbeq⟩ := position_eq_some _ _ _ hp
    have hget : s.tasks.get ⟨i, hi⟩ = t := by simpa using hbeq
    refine ⟨?_, nodup_swapRemove _ _ hi h.2⟩
    intro u
    show u ∈ swapRemove s.tasks i ↔ (mset s.task_info t none u).isSome = true
    rw [mem_swapRemove s.tasks i hi h.2 u, hget]
    by_cases hut : u = t
    · subst hut; simp [mset]
    · simp only [mset, if_neg hut, hut, ne_eq, not_false_iff, and_true]
      exact h.1 u
  | clearTasks c =>
    simp only [exec] at hexec
    obtain ⟨ti, uf, ts, -, hl, hr⟩ := clear_tasks_ok hexec
    rw [hr]
    obtain ⟨h2, h1⟩ := clearTasksLoop_spec s.tasks s.task_info
      s.unclaimed_funds h.1 h.2 (ti, uf, ts) hl
    simp only at h2 h1
    refine ⟨?_, ?_⟩
    · intro u
      show u ∈ ts ↔ (ti u).isSome = true
      rw [h2, h1 u]
      simp
    · show ts.Nodup
      rw [h2]
      exact List.nodup_nil
  | fundTask c v t =>
    simp only [exec] at hexec
    obtain ⟨info, b, hsome, -, -, hr⟩ := fund_task_ok hexec
    rw [hr]
    refine ⟨?_, h.2⟩
    intro u
    show u ∈ s.tasks ↔ (mset s.task_info t (some (info.1, b)) u).isSome = true
    by_cases hut : u = t
    · subst hut
      simp only [mset, if_pos rfl, Option.isSome_some]
      rw [h.1 u, hsome]
      simp
    · simp only [mset, if_neg hut]
      exact h.1 u
  | startNewEra blk =>
    simp only [exec] at hexec
    obtain ⟨-, -, -, -, hr⟩ := start_new_era_ok hexec
    rw [hr]; exact h
  | uploadProof c p =>
    simp only [exec] at hexec
    obtain ⟨t, b, -, -, hr⟩ := upload_completion_proof_ok hexec
    rw [hr]; exact h
  | completeTask c bal tok =>
    simp only [exec] at hexec
    obtain ⟨-, hcase⟩ := complete_task_ok hexec
    rcases hcase with ⟨-, hr⟩ | ⟨t, fl, info, uf, ts, -, hsome, -, hr⟩
    · rw [hr]; exact h
    · rw [hr]
      refine ⟨?_, h.2⟩
      intro u
      show u ∈ s.tasks ↔ (mset s.task_info t (some (true, 0)) u).isSome = true
      by_cases hut : u = t
      · subst hut
        simp only [mset, if_pos rfl, Option.isSome_some]
        rw [h.1 u, hsome]
        simp
      · simp only [mset, if_neg hut]
        exact h.1 u

theorem tasksInv_reachable (s : Polkapobal) (h : Reachable s) :
    TasksInv s := by
  induction h with
  | init c b e =>
    refine ⟨fun t => ?_, List.nodup_nil⟩
    simp [Polkapobal.new]
  | step op hs ih => exact tasksInv_step op _ ih

/-- Embeds `active_task` is set iff participants were selected, and a selection
always has exactly 4 participants. -/
def SelInv (s : Polkapobal) : Prop :=
  (s.active_task.isSome = true ↔ s.active_participants ≠ []) ∧
    (s.active_participants ≠ [] → s.active_participants.length = 4)

theorem selInv_step (op : Op) (s : Polkapobal) (h : SelInv s) :
    SelInv (execS op s) := by
  rcases execS_cases op s with hE | ⟨r, hexec, hS⟩
  · rwa [hE]
  rw [hS]
  cases op with
  | setSelectionEra c e =>
    simp only [exec] at hexec
    obtain ⟨-, hr⟩ := set_selection_era_ok hexec
    rw [hr]; exact h
  | registerMember c =>
    simp only [exec] at hexec
    obtain ⟨-, hr⟩ := register_member_ok hexec
    rw [hr]; exact h
  | deregisterMember c =>
    simp only [exec] at hexec
    obtain ⟨i, -, -, hr⟩ := deregister_member_ok hexec
    rw [hr]; exact h
  | clearMembers c =>
    simp only [exec] at hexec
    obtain ⟨-, hr⟩ := clear_members_ok hexec
    rw [hr]; exact h
  | addTask c t =>
    simp only [exec] at hexec
    obtain ⟨-, -, hr⟩ := add_task_ok hexec
    rw [hr]; exact h
  | removeTask c t =>
    simp only [exec] at hexec
    obtain ⟨info, uf, i, -, -, -, -, hr⟩ := remove_task_ok hexec
    rw [hr]; exact h
  | clearTasks c =>
    simp only [exec] at hexec
    obtain ⟨ti, uf, ts, -, -, hr⟩ := clear_tasks_ok hexec
    rw [hr]; exact h
  | fundTask c v t =>
    simp only [exec] at hexec
    obtain ⟨info, b, -, -, -, hr⟩ := fund_task_ok hexec
    rw [hr]; exact h
  | startNewEra blk =>
    simp only [exec] at hexec
    obtain ⟨-, -, -, -, hr⟩ := start_new_era_ok hexec
    rw [hr]
    refine ⟨?_, ?_⟩
    · show (some (randomly_select_task s blk, false)).isSome = true ↔
        randomly_select_members s blk ≠ []
      simp [randomly_select_members]
    · show randomly_select_members s blk ≠ [] →
        (randomly_select_members s blk).length = 4
      intro _
      simp [randomly_select_members]
  | uploadProof c p =>
    simp only [exec] at hexec
    obtain ⟨t, b, -, -, hr⟩ := upload_completion_proof_ok hexec
    rw [hr]; exact h
  | completeTask c bal tok =>
    simp only [exec] at hexec
    obtain ⟨-, hcase⟩ := complete_task_ok hexec
    rcases hcase with ⟨-, hr⟩ | ⟨t, fl, info, uf, ts, ha, -, -, hr⟩
    · rw [hr]; exact h
    · rw [hr]
      have hne : s.active_participants ≠ [] := h.1.mp (by rw [ha]; rfl)
      exact ⟨by simpa using hne, h.2⟩

theorem selInv_reachable (s : Polkapobal) (h : Reachable s) : SelInv s := by
  induction h with
  | init c b e =>
    refine ⟨?_, ?_⟩ <;> simp [Polkapobal.new]
  | step op hs ih => exact selInv_step op _ ih

theorem disburseLoop_error_overflow (share : Nat) (tok : Nat → Bool) :
    ∀ (bs : List Nat) (i uf : Nat) (e : Error),
      disburseLoop share tok bs i uf = .error e → e = .BalanceOverflow := by
  intro bs
  induction bs with
  | nil => intro i uf e h; cases h
  | cons b t ih =>
    intro i uf e h
    simp only [disburseLoop] at h
    by_cases htok : tok i
    · rw [if_pos htok] at h
      cases hrec : disburseLoop share tok t (i + 1) uf with
      | ok r => rw [hrec] at h; obtain ⟨uf2, ts⟩ := r; cases h
      | error e2 =>
        rw [hrec] at h
        cases h
        exact ih (i + 1) uf e hrec
    · rw [if_neg htok] at h
      cases hca : checked_add uf share with
      | none => rw [hca] at h; cases h; rfl
      | some uf2 =>
        rw [hca] at h
        exact ih (i + 1) uf2 e h

theorem disburse_rewards_ne_div_zero (bs : List Nat) (amount balance : Nat)
    (tok : Nat → Bool) (uf : Nat) (hne : bs ≠ []) :
    disburse_rewards bs amount balance tok uf ≠ .error .DivideByZero := by
  unfold disburse_rewards
  intro h
  split at h
  · cases h
  · rw [if_neg (by simpa using hne)] at h
    simp only [] at h
    split at h
    · next e heq =>
      cases h
      exact absurd (disburseLoop_error_overflow _ _ _ _ _ _ heq) (by simp)
    · next p heq =>
      split at h
      · cases h
      · cases h

theorem disburseLoop_all_success (share : Nat) (tok : Nat → Bool) :
    ∀ (bs : List Nat) (i uf : Nat), (∀ j, i ≤ j → tok j = true) →
      disburseLoop share tok bs i uf =
        .ok (uf, bs.map fun b => (b, share)) := by
  intro bs
  induction bs with
  | nil => intro i uf _; rfl
  | cons b t ih =>
    intro i uf htok
    simp only [disburseLoop, if_pos (htok i (Nat.le_refl i))]
    rw [ih (i + 1) uf fun j hj => htok j (by omega)]
    simp

theorem disburseLoop_fail_at (share k : Nat) :
    ∀ (bs : List Nat) (i uf : Nat), i ≤ k → k < i + bs.length →
      uf + share < U128 →
      disburseLoop share (fun j => !(j == k)) bs i uf =
        .ok (uf + share, (bs.eraseIdx (k - i)).map fun b => (b, share)) := by
  intro bs
  induction bs with
  | nil => intro i uf h1 h2 _; simp at h2; omega
  | cons b t ih =>
    intro i uf h1 h2 hov
    by_cases hik : i = k
    · subst hik
      simp only [disburseLoop, beq_self_eq_true, Bool.not_true,
        Bool.false_eq_true, if_false, checked_add_eq_some hov,
        Nat.sub_self, List.eraseIdx]
      exact disburseLoop_all_success share _ t (i + 1) (uf + share)
        fun j hj => by simp; omega
    · have hlt : i < k := by omega
      simp only [disburseLoop]
      rw [if_pos (by simp; omega)]
      rw [ih (i + 1) uf (by omega) (by simp at h2 ⊢; omega) hov]
      have hidx : k - i = (k - (i + 1)) + 1 := by omega
      rw [hidx]
      simp [List.eraseIdx]

/-! ### Claim theorems -/

/-- C5: in every reachable state the ordered member sequence and the
membership map contain exactly the same elements and the sequence has no
duplicates; every operation preserves this. -/
theorem claim5_members_seq_set_agree (s : Polkapobal) (h : Reachable s) :
    (∀ a, a ∈ s.members ↔ s.is_member a = true) ∧ s.members.Nodup :=
  membersInv_reachable s h

theorem claim5_witness :
    (∀ a, a ∈ (Polkapobal.new 1 2 3).members ↔
      (Polkapobal.new 1 2 3).is_member a = true) ∧
      (Polkapobal.new 1 2 3).members.Nodup :=
  claim5_members_seq_set_agree _ (Reachable.init 1 2 3)

/-- C6: in every reachable state a task name appears in the active-task
sequence iff it has an entry in the task-info table; every operation
preserves this. -/
theorem claim6_tasks_seq_info_agree (s : Polkapobal) (h : Reachable s) :
    ∀ t, t ∈ s.tasks ↔ (s.task_info t).isSome = true :=
  (tasksInv_reachable s h).1

theorem claim6_witness :
    "x" ∈ (Polkapobal.new 1 2 3).tasks ↔
      ((Polkapobal.new 1 2 3).task_info "x").isSome = true :=
  claim6_tasks_seq_info_agree _ (Reachable.init 1 2 3) "x"

/-- C7: whenever a public operation aborts with an error, the observable
post-state (under the runtime's transactional semantics, `execS`) is
exactly the pre-state — no partial mutation survives, including the
incremental unclaimed-funds updates inside `clear_tasks` or
`remove_task`. -/
theorem claim7_abort_reverts (op : Op) (s : Polkapobal) (e : Error)
    (h : exec op s = .error e) : execS op s = s := by
  simp [execS, h]

theorem claim7_witness :
    exec (.clearTasks 0) sOv = .error .BalanceOverflow ∧
      execS (.clearTasks 0) sOv = sOv :=
  ⟨by rfl, claim7_abort_reverts (.clearTasks 0) sOv .BalanceOverflow (by rfl)⟩

/-- C8: calling `complete_task` as the owner while `active_task` is `None`
succeeds, changes no state and emits no event. -/
theorem claim8_complete_task_noop (s : Polkapobal) (caller bal : Nat)
    (tok : Nat → Bool) (howner : caller = s.owner)
    (hnone : s.active_task = none) :
    complete_task s caller bal tok = .ok (s, []) := by
  unfold complete_task
  rw [if_pos howner, hnone]

theorem claim8_witness :
    complete_task (Polkapobal.new 0 5 10) 0 77 (fun _ => true) =
      .ok (Polkapobal.new 0 5 10, []) :=
  claim8_complete_task_noop (Polkapobal.new 0 5 10) 0 77 (fun _ => true)
    rfl rfl

/-- C9: in every reachable state `active_task` is set iff
`active_participants` is non-empty, a non-empty selection has exactly 4
participants, and consequently `complete_task` can never hit the
division-by-zero panic inside `disburse_rewards`. -/
theorem claim9_selection_invariant (s : Polkapobal) (h : Reachable s) :
    (s.active_task.isSome = true ↔ s.active_participants ≠ []) ∧
    (s.active_participants ≠ [] → s.active_participants.length = 4) ∧
    (∀ c bal tok, complete_task s c bal tok ≠ .error .DivideByZero) := by
  have hs := selInv_reachable s h
  refine ⟨hs.1, hs.2, ?_⟩
  intro c bal tok hcontra
  unfold complete_task at hcontra
  split at hcontra
  · split at hcontra
    · cases hcontra
    · next t fl ha =>
      split at hcontra
      · simp at hcontra
      · next info hi =>
        have hne : s.active_participants ≠ [] := hs.1.mp (by rw [ha]; rfl)
        split at hcontra
        · next e hd =>
          injection hcontra with he
          subst he
          exact disburse_rewards_ne_div_zero s.active_participants info.2
            bal tok s.unclaimed_funds hne hd
        · cases hcontra
  · simp at hcontra

theorem claim9_witness :
    ((Polkapobal.new 1 2 3).active_task.isSome = true ↔
      (Polkapobal.new 1 2 3).active_participants ≠ []) ∧
    ((Polkapobal.new 1 2 3).active_participants ≠ [] →
      (Polkapobal.new 1 2 3).active_participants.length = 4) ∧
    (∀ c bal tok, complete_task (Polkapobal.new 1 2 3) c bal tok ≠
      .error .DivideByZero) :=
  claim9_selection_invariant _ (Reachable.init 1 2 3)

/-- C1: when its preconditions hold (era reached, no incomplete active
task, members and tasks non-empty), `start_new_era` succeeds, selecting
exactly 4 participants `members[(blk + i) mod len(members)]` for
`i ∈ 0..4`, the task `tasks[blk mod len(tasks)]`, and committing
`last_selection := blk`, `active_participants := selection`,
`active_task := (task, false)` — all other fields untouched. -/
theorem claim1_start_new_era_commits (s : Polkapobal) (blk : Nat)
    (h1 : s.last_selection + s.next_selection ≤ blk)
    (h2 : active_task_completed s = true)
    (h3 : s.members ≠ []) (h4 : s.tasks ≠ []) :
    start_new_era s blk =
      .ok ({ s with last_selection := blk
                    active_participants := randomly_select_members s blk
                    active_task := some (randomly_select_task s blk, false) },
        [.NewEraStarted blk (randomly_select_members s blk)
          (randomly_select_task s blk)]) ∧
    (randomly_select_members s blk).length = 4 ∧
    (∀ i, i < 4 → (randomly_select_members s blk).getD i 0 =
      s.members.getD ((blk + i) % s.members.length) 0) ∧
    randomly_select_task s blk = s.tasks.getD (blk % s.tasks.length) "" := by
  refine ⟨?_, ?_, ?_, rfl⟩
  · unfold start_new_era
    rw [if_neg (by omega), if_pos h2,
      if_neg (by simpa [List.length_eq_zero] using h3),
      if_neg (by simpa [List.length_eq_zero] using h4)]
  · simp [randomly_select_members]
  · intro i hi
    interval_cases i <;> rfl

theorem claim1_witness :
    start_new_era sC1 5 =
      .ok ({ sC1 with last_selection := 5
                      active_participants := randomly_select_members sC1 5
                      active_task := some (randomly_select_task sC1 5, false) },
        [.NewEraStarted 5 (randomly_select_members sC1 5)
          (randomly_select_task sC1 5)]) ∧
    randomly_select_members sC1 5 = [7, 7, 7, 7] ∧
    randomly_select_task sC1 5 = "a" :=
  ⟨(claim1_start_new_era_commits sC1 5 (by decide) (by decide) (by decide)
      (by decide)).1, by rfl, by rfl⟩

/-- C10: a successful `remove_task` never changes `active_task`, so the
active task can be removed from under the selection; in any state whose
`active_task` names a task without an info entry, `complete_task` by the
owner aborts with the "Task must exist" panic — and such a state is
reachable. -/
theorem claim10_remove_active_then_complete_panics :
    (∀ (s : Polkapobal) (c : Nat) (t : String) (r : Polkapobal × List Event),
      remove_task s c t = .ok r → r.1.active_task = s.active_task) ∧
    (∀ (s : Polkapobal) (c bal : Nat) (tok : Nat → Bool) (t : String)
      (b : Bool), c = s.owner → s.active_task = some (t, b) →
      s.task_info t = none →
      complete_task s c bal tok = .error .TaskMustExist) ∧
    (∃ s, Reachable s ∧
      ∃ t b, s.active_task = some (t, b) ∧ s.task_info t = none) := by
  refine ⟨?_, ?_, ?_⟩
  · intro s c t r h
    obtain ⟨info, uf, i, -, -, -, -, hr⟩ := remove_task_ok h
    rw [hr]
  · intro s c bal tok t b howner hsome hnone
    unfold complete_task
    rw [if_pos howner, hsome]
    simp [hnone]
  · refine ⟨sDangling, ?_, "t", false, by rfl, by rfl⟩
    exact Reachable.step (.removeTask 0 "t")
      (Reachable.step (.startNewEra 0)
        (Reachable.step (.addTask 0 "t")
          (Reachable.step (.registerMember 0) (Reachable.init 0 0 0))))

theorem claim10_witness :
    complete_task sDangling 0 0 (fun _ => true) = .error .TaskMustExist :=
  claim10_remove_active_then_complete_panics.2.1 sDangling 0 0
    (fun _ => true) "t" false (by rfl) (by rfl) (by rfl)

theorem active_task_completed_false_iff (s : Polkapobal) :
    active_task_completed s = false ↔
      ∃ t, s.active_task = some (t, false) := by
  unfold active_task_completed
  cases ha : s.active_task with
  | none => simp
  | some tb =>
    obtain ⟨t, b⟩ := tb
    cases b <;> simp

/-- C2: disbursement over a non-empty list of `n` beneficiaries transfers
`amount / n` (truncating) to each and adds `amount mod n` to the unclaimed
pool unconditionally; the transferred total plus the remainder equals
`amount` exactly (75 over 4: shares of 18, remainder 3). -/
theorem claim2_disburse_split (bs : List Nat) (amount balance unclaimed : Nat)
    (hne : bs ≠ []) (hbal : amount ≤ balance)
    (hov : unclaimed + amount < U128) :
    disburse_rewards bs amount balance (fun _ => true) unclaimed =
      .ok (unclaimed + amount % bs.length,
        bs.map fun b => (b, amount / bs.length)) ∧
    ((bs.map fun b => (b, amount / bs.length)).map Prod.snd).sum +
      amount % bs.length = amount := by
  have hlen : bs.length ≠ 0 := by simpa [List.length_eq_zero] using hne
  have hrem : unclaimed + amount % bs.length < U128 := by
    have := Nat.mod_le amount bs.length
    omega
  constructor
  · unfold disburse_rewards
    rw [if_neg (by omega), if_neg hlen]
    simp only []
    rw [disburseLoop_all_success (amount / bs.length) _ bs 0 unclaimed
      (fun j _ => rfl)]
    show (match checked_add unclaimed (amount % bs.length) with
      | none => (.error .BalanceOverflow : Except Error (Nat × List (Nat × Nat)))
      | some uf2 => .ok (uf2, bs.map fun b => (b, amount / bs.length))) = _
    rw [checked_add_eq_some hrem]
  · rw [List.map_map]
    have hcomp : (Prod.snd ∘ fun b : Nat => (b, amount / bs.length)) =
        fun _ : Nat => amount / bs.length := rfl
    rw [hcomp, List.map_const', List.sum_replicate, smul_eq_mul]
    exact Nat.div_add_mod amount bs.length

theorem claim2_witness :
    disburse_rewards [1, 2, 3, 4] 75 1000 (fun _ => true) 0 =
      .ok (0 + 75 % 4, [1, 2, 3, 4].map fun b => (b, 75 / 4)) ∧
    (([1, 2, 3, 4].map fun b => (b, 75 / 4)).map Prod.snd).sum + 75 % 4 = 75 :=
  claim2_disburse_split [1, 2, 3, 4] 75 1000 0 (by decide) (by decide)
    (by decide)

/-- C3: when exactly the `k`-th transfer fails during disbursement, the
operation still succeeds: every other beneficiary receives its share and
exactly the failed share (plus the remainder) is checked-added to the
unclaimed pool. -/
theorem claim3_disburse_failed_transfer (bs : List Nat)
    (amount balance unclaimed k : Nat) (hk : k < bs.length)
    (hbal : amount ≤ balance) (hov : unclaimed + amount < U128) :
    disburse_rewards bs amount balance (fun i => !(i == k)) unclaimed =
      .ok (unclaimed + amount / bs.length + amount % bs.length,
        (bs.eraseIdx k).map fun b => (b, amount / bs.length)) := by
  have hlen : bs.length ≠ 0 := by omega
  have hshare : amount / bs.length ≤ amount := Nat.div_le_self _ _
  have hov1 : unclaimed + amount / bs.length < U128 := by omega
  have hdm := Nat.div_add_mod amount bs.length
  have hq : amount / bs.length ≤ bs.length * (amount / bs.length) :=
    Nat.le_mul_of_pos_left _ (Nat.pos_of_ne_zero hlen)
  have hrem : unclaimed + amount / bs.length + amount % bs.length < U128 := by
    omega
  unfold disburse_rewards
  rw [if_neg (by omega), if_neg hlen]
  simp only []
  rw [disburseLoop_fail_at (amount / bs.length) k bs 0 unclaimed
    (Nat.zero_le k) (by omega) hov1]
  show (match checked_add (unclaimed + amount / bs.length)
      (amount % bs.length) with
    | none => (.error .BalanceOverflow : Except Error (Nat × List (Nat × Nat)))
    | some uf2 => .ok (uf2,
        (bs.eraseIdx (k - 0)).map fun b => (b, amount / bs.length))) = _
  rw [checked_add_eq_some hrem]
  simp

theorem claim3_witness :
    disburse_rewards [5, 6, 7] 10 100 (fun i => !(i == 1)) 0 =
      .ok (0 + 10 / 3 + 10 % 3,
        ([5, 6, 7].eraseIdx 1).map fun b => (b, 10 / 3)) :=
  claim3_disburse_failed_transfer [5, 6, 7] 10 100 0 1 (by decide)
    (by decide) (by decide)

/-- C4: `start_new_era` fails with `EraNotReached` exactly when
`blk - last_selection < next_selection`; with `TaskIncomplete` exactly
when the era is reached but the active task is set and incomplete
(passing trivially when it is `None`); with `NoMembers` / `NoTasks`
exactly when the earlier gates pass and the respective sequence is empty;
and any failure leaves the state unchanged. -/
theorem claim4_start_new_era_failures (s : Polkapobal) (blk : Nat)
    (hle : s.last_selection ≤ blk) :
    (start_new_era s blk = .error .EraNotReached ↔
      blk - s.last_selection < s.next_selection) ∧
    (start_new_era s blk = .error .TaskIncomplete ↔
      s.next_selection ≤ blk - s.last_selection ∧
        ∃ t, s.active_task = some (t, false)) ∧
    (start_new_era s blk = .error .NoMembers ↔
      s.next_selection ≤ blk - s.last_selection ∧
        active_task_completed s = true ∧ s.members = []) ∧
    (start_new_era s blk = .error .NoTasks ↔
      s.next_selection ≤ blk - s.last_selection ∧
        active_task_completed s = true ∧ s.members ≠ [] ∧ s.tasks = []) ∧
    (∀ e, start_new_era s blk = .error e →
      execS (.startNewEra blk) s = s) := by
  have h5 : ∀ e, start_new_era s blk = .error e →
      execS (.startNewEra blk) s = s := by
    intro e he
    simp [execS, exec, he]
  refine ⟨?_, ?_, ?_, ?_, h5⟩
  · unfold start_new_era
    by_cases h1 : blk < s.last_selection + s.next_selection
    · rw [if_pos h1]
      exact iff_of_true rfl (by omega)
    · rw [if_neg h1]
      by_cases h2 : active_task_completed s
      · rw [if_pos h2]
        by_cases h3 : s.members.length = 0
        · rw [if_pos h3]
          exact iff_of_false (by simp) (by omega)
        · rw [if_neg h3]
          by_cases h4 : s.tasks.length = 0
          · rw [if_pos h4]
            exact iff_of_false (by simp) (by omega)
          · rw [if_neg h4]
            exact iff_of_false (by simp) (by omega)
      · rw [if_neg (by simpa using h2)]
        exact iff_of_false (by simp) (by omega)
  · unfold start_new_era
    by_cases h1 : blk < s.last_selection + s.next_selection
    · rw [if_pos h1]
      exact iff_of_false (by simp) (by rintro ⟨hc, -⟩; omega)
    · rw [if_neg h1]
      by_cases h2 : active_task_completed s
      · rw [if_pos h2]
        have hR : ¬(s.next_selection ≤ blk - s.last_selection ∧
            ∃ t, s.active_task = some (t, false)) := by
          rintro ⟨-, t, hsome⟩
          have hfalse := (active_task_completed_false_iff s).mpr ⟨t, hsome⟩
          rw [h2] at hfalse
          cases hfalse
        by_cases h3 : s.members.length = 0
        · rw [if_pos h3]
          exact iff_of_false (by simp) hR
        · rw [if_neg h3]
          by_cases h4 : s.tasks.length = 0
          · rw [if_pos h4]
            exact iff_of_false (by simp) hR
          · rw [if_neg h4]
            exact iff_of_false (by simp) hR
      · rw [if_neg (by simpa using h2)]
        exact iff_of_true rfl ⟨by omega,
          (active_task_completed_false_iff s).mp (by simpa using h2)⟩
  · unfold start_new_era
    by_cases h1 : blk < s.last_selection + s.next_selection
    · rw [if_pos h1]
      exact iff_of_false (by simp) (by rintro ⟨hc, -, -⟩; omega)
    · rw [if_neg h1]
      by_cases h2 : active_task_completed s
      · rw [if_pos h2]
        by_cases h3 : s.members.length = 0
        · rw [if_pos h3]
          exact iff_of_true rfl ⟨by omega, h2, List.length_eq_zero.mp h3⟩
        · rw [if_neg h3]
          have hR : ¬(s.next_selection ≤ blk - s.last_selection ∧
              active_task_completed s = true ∧ s.members = []) := by
            rintro ⟨-, -, hm⟩
            exact h3 (by simp [hm])
          by_cases h4 : s.tasks.length = 0
          · rw [if_pos h4]
            exact iff_of_false (by simp) hR
          · rw [if_neg h4]
            exact iff_of_false (by simp) hR
      · rw [if_neg (by simpa using h2)]
        exact iff_of_false (by simp)
          (by rintro ⟨-, hc, -⟩; exact h2 hc)
  · unfold start_new_era
    by_cases h1 : blk < s.last_selection + s.next_selection
    · rw [if_pos h1]
      exact iff_of_false (by simp) (by rintro ⟨hc, -, -, -⟩; omega)
    · rw [if_neg h1]
      by_cases h2 : active_task_completed s
      · rw [if_pos h2]
        by_cases h3 : s.members.length = 0
        · rw [if_pos h3]
          exact iff_of_false (by simp)
            (by rintro ⟨-, -, hm, -⟩; exact hm (List.length_eq_zero.mp h3))
        · rw [if_neg h3]
          by_cases h4 : s.tasks.length = 0
          · rw [if_pos h4]
            exact iff_of_true rfl ⟨by omega, h2,
              by simpa [List.length_eq_zero] using h3,
              List.length_eq_zero.mp h4⟩
          · rw [if_neg h4]
            exact iff_of_false (by simp)
              (by rintro ⟨-, -, -, ht⟩; exact h4 (by simp [ht]))
      · rw [if_neg (by simpa using h2)]
        exact iff_of_false (by simp)
          (by rintro ⟨-, hc, -, -⟩; exact h2 hc)

theorem claim4_witness :
    start_new_era (Polkapobal.new 0 10 5) 12 = .error .EraNotReached :=
  ((claim4_start_new_era_failures (Polkapobal.new 0 10 5) 12
    (by decide)).1).mpr (by decide)
